import Mathlib

/-!
Verification development for the consumer-segmentation repository
(`main.py`, `src/cluster_engine.py`, `src/data_preprocessor.py`).

The Python code is shallowly embedded: pure numeric computations become
Lean functions over `ℚ`, `ℕ`, `Int` and `List`; calls into external
libraries (scikit-learn's `KMeans`, `DBSCAN`, `silhouette_score`,
`davies_bouldin_score`, `calinski_harabasz_score`, and the square root
used by `StandardScaler`) are abstracted as oracle parameters, since their
numerical output is not determined by this repository's code.  Everything
the repository itself computes — candidate grids, guard conditions,
best-candidate selection, sentinel substitution, label renumbering,
string cleaning, variance filtering and standardization — is translated
directly from the source.
-/

set_option allowUnsafeReducibility true
attribute [local semireducible] Rat.add Rat.mul Rat.inv Rat.sub Rat.div

namespace PerfilCompra

/-! ### Cluster engine: `find_optimal_k` (src/cluster_engine.py lines 18-50)

`find_optimal_k(X, k_range=(2,10))` builds
`k_values = range(k_range[0], min(k_range[1] + 1, len(X) // 2))`
(a half-open Python range), scores each candidate `k` with a silhouette
score (recording the sentinel `-1` when the clustering is degenerate or
raises), and returns `k_range[0]` when the score list is empty or its
maximum is negative, else the candidate attaining the first maximal
score (`np.argmax`). -/

/-- The list of candidate cluster counts
`range(kmin, min(kmax + 1, n / 2))`, where `n` is the number of rows of
`X` and `/` is integer division (Python `len(X) // 2`). -/
def kValues (kmin kmax n : ℕ) : List ℕ :=
  List.range' kmin (min (kmax + 1) (n / 2) - kmin)

/-- One step of the running `np.argmax` over candidate scores: keep the
pair `(candidate, score)` with the maximal score, first occurrence
winning (`np.argmax` returns the first index of the maximum). -/
def argmaxStep (f : ℕ → ℚ) (b : ℕ × ℚ) (j : ℕ) : ℕ × ℚ :=
  if b.2 < f j then (j, f j) else b

/-- Embedding of `ClusterEngine.find_optimal_k`.  The oracle `scoreOf k`
is the outcome of `silhouette_score(X, KMeans(k).fit_predict(X))`:
`none` when the fit produced fewer than two distinct labels or raised
(the code then records the sentinel `-1`), `some s` otherwise. -/
def find_optimal_k (scoreOf : ℕ → Option ℚ) (kmin kmax n : ℕ) : ℕ :=
  match kValues kmin kmax n with
  | [] => kmin
  | k :: ks =>
    let f : ℕ → ℚ := fun j => (scoreOf j).getD (-1)
    let best := ks.foldl (argmaxStep f) (k, f k)
    if best.2 < 0 then kmin else best.1

/-! ### Cluster engine: `find_optimal_dbscan_params`
(src/cluster_engine.py lines 67-118) -/

/-- Number of distinct labels excluding the outlier sentinel `-1`
(`len(set(labels)) - (1 if -1 in labels else 0)`). -/
def nClusters (labels : List Int) : ℕ :=
  ((labels.filter (fun l => l ≠ -1)).dedup).length

/-- Number of non-outlier points (`(labels != -1).sum()`). -/
def nValid (labels : List Int) : ℕ :=
  (labels.filter (fun l => l ≠ -1)).length

/-- Outlier ratio as the grid search computes it:
`n_noise / len(labels) if len(labels) > 0 else 1.0`. -/
def noiseRatioSearch (labels : List Int) : ℚ :=
  if 0 < labels.length then (labels.count (-1) : ℚ) / (labels.length : ℚ) else 1

/-- Model of `np.arange(start, stop, step)` for positive rational
arguments: `ceil((stop - start) / step)` equally spaced values starting
at `start`.  For the grid `np.arange(0.3, 2.0, 0.1)` used by the code
this exact rational model produces the same 17 values
`0.3, 0.4, …, 1.9` as the floating-point original (whose computed
element count `ceil((2.0 - 0.3) / 0.1)` is also 17). -/
def arange (start stop step : ℚ) : List ℚ :=
  (List.range (⌈(stop - start) / step⌉.toNat)).map (fun k => start + k * step)

/-- The radius grid `np.arange(0.3, 2.0, 0.1)`. -/
def epsGrid : List ℚ := arange (3/10) 2 (1/10)

/-- The minimum-neighbor grid `[3, 5, 7, 10, 15]`. -/
def minSamplesGrid : List ℕ := [3, 5, 7, 10, 15]

/-- All grid combinations in the order the nested `for` loops visit
them: radius outer, minimum-neighbor count inner. -/
def comboGrid : List (ℚ × ℕ) :=
  epsGrid.flatMap (fun e => minSamplesGrid.map (fun m => (e, m)))

/-- Mutable state of the DBSCAN grid search: `best_score`, `best_eps`,
`best_min_samples`, `best_n_clusters`. -/
structure DbState where
  bestScore : ℚ
  bestEps : ℚ
  bestMin : ℕ
  bestN : ℕ
deriving DecidableEq, Repr

/-- Initial search state: `best_score = -1`, `best_eps = 0.5`,
`best_min_samples = 5`, `best_n_clusters = 0`. -/
def dbInit : DbState := ⟨-1, 1/2, 5, 0⟩

/-- One iteration of the grid-search loop body.  `run eps m` is the
label array produced by `DBSCAN(eps, m).fit_predict(X)`; `sil eps m` is
the silhouette score of its non-outlier points (`none` when the call
raises).  The guards mirror the source: at least 2 clusters, outlier
ratio below one half (an empty label array counts as ratio 1), at least
`2 * n_clusters` non-outlier points; a scored candidate replaces the
best when its score is strictly higher, or equal with strictly more
clusters. -/
def dbStep (run : ℚ → ℕ → List Int) (sil : ℚ → ℕ → Option ℚ)
    (st : DbState) (c : ℚ × ℕ) : DbState :=
  if 2 ≤ nClusters (run c.1 c.2) ∧ noiseRatioSearch (run c.1 c.2) < 1/2 then
    if nClusters (run c.1 c.2) * 2 ≤ nValid (run c.1 c.2) then
      match sil c.1 c.2 with
      | none => st
      | some score =>
        if st.bestScore < score ∨ (score = st.bestScore ∧ st.bestN < nClusters (run c.1 c.2)) then
          ⟨score, c.1, c.2, nClusters (run c.1 c.2)⟩
        else st
    else st
  else st

/-- Embedding of `ClusterEngine.find_optimal_dbscan_params`: fold the
loop body over the grid and apply the final fallback
(`best_score == -1` means nothing was kept, return
`eps = 0.8, min_samples = 5`). -/
def find_optimal_dbscan_params (run : ℚ → ℕ → List Int)
    (sil : ℚ → ℕ → Option ℚ) : ℚ × ℕ :=
  let st := comboGrid.foldl (dbStep run sil) dbInit
  if st.bestScore = -1 then (4/5, 5) else (st.bestEps, st.bestMin)

/-- A grid combination that passed all viability guards and whose
silhouette call returned a value, together with that value and its
cluster count. -/
structure ScoredCombo where
  eps : ℚ
  ms : ℕ
  score : ℚ
  nc : ℕ
deriving DecidableEq, Repr

/-- Whether the loop body scores the combination `c`, and with which
data: the viability guards pass and the silhouette call returns a
value. -/
def scoreEntry (run : ℚ → ℕ → List Int) (sil : ℚ → ℕ → Option ℚ)
    (c : ℚ × ℕ) : Option ScoredCombo :=
  if 2 ≤ nClusters (run c.1 c.2) ∧ noiseRatioSearch (run c.1 c.2) < 1/2 ∧
      nClusters (run c.1 c.2) * 2 ≤ nValid (run c.1 c.2) then
    (sil c.1 c.2).map (fun s => ⟨c.1, c.2, s, nClusters (run c.1 c.2)⟩)
  else none

/-- The scored combinations of a combination list, in visit order: the
combinations on which the loop body actually invokes and receives a
silhouette score. -/
def scoredOf (run : ℚ → ℕ → List Int) (sil : ℚ → ℕ → Option ℚ)
    (l : List (ℚ × ℕ)) : List ScoredCombo :=
  l.filterMap (scoreEntry run sil)

/-- The scored combinations of the full grid search. -/
def scoredCombos (run : ℚ → ℕ → List Int) (sil : ℚ → ℕ → Option ℚ) :
    List ScoredCombo :=
  scoredOf run sil comboGrid

/-- The preference order of the search: `a` does not beat `b` when `a`
scores strictly lower, or ties with at most as many clusters. -/
def lexLE (a b : ScoredCombo) : Prop :=
  a.score < b.score ∨ (a.score = b.score ∧ a.nc ≤ b.nc)

instance (a b : ScoredCombo) : Decidable (lexLE a b) := by
  unfold lexLE; infer_instance

/-- State description: the fold's state holds exactly the data of a
scored combination. -/
def stMatches (st : DbState) (sc : ScoredCombo) : Prop :=
  st.bestScore = sc.score ∧ st.bestEps = sc.eps ∧ st.bestMin = sc.ms ∧ st.bestN = sc.nc

/-! ### Cluster engine: `calculate_metrics`
(src/cluster_engine.py lines 140-185) -/

/-- A metric value: a finite score or the `float('inf')` sentinel. -/
inductive MetricVal where
  | val (q : ℚ)
  | inf
deriving DecidableEq, Repr

/-- The metrics dictionary built by `calculate_metrics`. -/
structure Metrics where
  n_clusters : ℕ
  n_noise : ℕ
  noise_ratio : ℚ
  silhouette_score : MetricVal
  davies_bouldin_score : MetricVal
  calinski_harabasz_score : MetricVal
deriving DecidableEq, Repr

/-- Outlier ratio as `calculate_metrics` computes it:
`n_noise / len(labels) if len(labels) > 0 else 0`. -/
def noiseRatioMetrics (labels : List Int) : ℚ :=
  if 0 < labels.length then (labels.count (-1) : ℚ) / (labels.length : ℚ) else 0

/-- Embedding of `ClusterEngine.calculate_metrics`.  `sil`, `db`, `ch`
are the outcomes of the three scikit-learn metric calls on the
non-outlier rows (`none` when the call raises; each exception is caught
per metric and replaced by that metric's sentinel: `0.0`, `inf`, `0.0`).
The viability guard is `n_clusters > 1 and n_valid >= n_clusters * 2`;
when it fails all three metrics are the sentinels.  The three counts
are always computed from the label array. -/
def calculate_metrics (sil db ch : Option ℚ) (labels : List Int) : Metrics :=
  if 1 < nClusters labels ∧ nClusters labels * 2 ≤ nValid labels then
    { n_clusters := nClusters labels, n_noise := labels.count (-1)
      noise_ratio := noiseRatioMetrics labels
      silhouette_score := .val (sil.getD 0)
      davies_bouldin_score := match db with | some q => .val q | none => .inf
      calinski_harabasz_score := .val (ch.getD 0) }
  else
    { n_clusters := nClusters labels, n_noise := labels.count (-1)
      noise_ratio := noiseRatioMetrics labels
      silhouette_score := .val 0
      davies_bouldin_score := .inf
      calinski_harabasz_score := .val 0 }

/-! ### Label normalizer: `normalize_cluster_labels` (main.py lines 16-42)

The Python function computes `np.unique(labels)` (the sorted distinct
values), excludes the outlier sentinel `-1`, walks the remaining values
in ascending order assigning new labels `1, 2, …`, writes each new label
into a copy of the array at the positions of the old one, and finally
writes `new_label` (one past the last assigned number) at the outlier
positions. -/

/-- The distinct non-outlier labels
(`unique_labels[unique_labels != -1]` as a set). -/
def distinctValid (labels : List Int) : List Int :=
  (labels.filter (fun l => l ≠ -1)).dedup

/-- The sorted distinct non-outlier labels, walked by the renumbering
loop (`sorted(unique_labels[unique_labels != -1])`). -/
def sortedValidLabels (labels : List Int) : List Int :=
  List.insertionSort (fun a b => a ≤ b) (distinctValid labels)

/-- Functional form of `normalize_cluster_labels`: the loop writes, at
the positions of the `i`-th smallest distinct non-outlier value, the
number `i + 1`; outlier positions receive one more than the count of
distinct non-outlier values. -/
def normalize_cluster_labels (labels : List Int) : List Int :=
  let sv := sortedValidLabels labels
  labels.map (fun l =>
    if l = -1 then (sv.length : Int) + 1 else (sv.indexOf l : Int) + 1)

/-- The two numpy arrays alive inside `normalize_cluster_labels`:
the argument `labels` and the working copy `normalized_labels`. -/
structure NormState where
  labels : List Int
  normalized : List Int
deriving DecidableEq, Repr

/-- Masked assignment `arr[mask] = v`. -/
def writeMask (arr : List Int) (mask : List Bool) (v : Int) : List Int :=
  (arr.zip mask).map (fun p => if p.2 then v else p.1)

/-- One pass of the renumbering loop:
`normalized_labels[labels == old_label] = new_label` where `new_label`
is `i + 1` for the `i`-th value walked. -/
def normStep (st : NormState) (p : ℕ × Int) : NormState :=
  { st with
    normalized := writeMask st.normalized (st.labels.map (fun x => x == p.2))
      ((p.1 : Int) + 1) }

/-- Imperative execution of `normalize_cluster_labels` as explicit state
passing: start from the copy, run the renumbering loop over the sorted
distinct non-outlier values, then rewrite the outlier positions. -/
def normRun (labels : List Int) : NormState :=
  let sv := sortedValidLabels labels
  let st1 := (sv.enum).foldl normStep ⟨labels, labels⟩
  let nmask := st1.labels.map (fun x => x == -1)
  if nmask.any (fun b => b) then
    { st1 with normalized := writeMask st1.normalized nmask ((sv.length : Int) + 1) }
  else st1

/-- The write function the renumbering loop folds into the copy, read
off pointwise: processing the pair `(k, v)` overwrites the image of the
label `v` with `k + 1`.  Folding it over an enumeration of the sorted
distinct labels yields the pointwise effect of the whole loop. -/
def hFold : List (ℕ × Int) → (Int → Int) → Int → Int
  | [], h => h
  | p :: ps, h => hFold ps (fun l => if l = p.2 then (p.1 : Int) + 1 else h l)

/-! ### Data preprocessor: `clean_price` (src/data_preprocessor.py
lines 17-26)

`clean_price` returns `0.0` for a missing value; otherwise it deletes
every `'₹'` and `','`, strips surrounding whitespace, extracts the first
match of the regex `\d+\.?\d*` (a maximal digit run, optionally one dot
and a further maximal digit run), and converts it to a number, `0.0`
when there is no match. -/

/-- ASCII digit test (the characters the regex class `\d` matches in
the strings at hand). -/
def isDigitC (c : Char) : Bool := decide ('0' ≤ c) && decide (c ≤ '9')

/-- Split a maximal leading digit run from a character list. -/
def takeDigits : List Char → List Char × List Char
  | [] => ([], [])
  | c :: cs =>
    if isDigitC c then
      let p := takeDigits cs
      (c :: p.1, p.2)
    else ([], c :: cs)

/-- The first match of `\d+\.?\d*` in a character list, returned as
(integer digits, fraction digits); `none` when no digit occurs. -/
def findNumberToken : List Char → Option (List Char × List Char)
  | [] => none
  | c :: cs =>
    if isDigitC c then
      let p := takeDigits cs
      match p.2 with
      | '.' :: rest2 => some (c :: p.1, (takeDigits rest2).1)
      | _ => some (c :: p.1, [])
    else findNumberToken cs

/-- Numeric value of a digit character. -/
def digitVal (c : Char) : ℕ := c.toNat - '0'.toNat

/-- Value of a digit string read in base 10 (value of the empty string
is 0, as in `float("1.")`). -/
def digitsVal (ds : List Char) : ℕ := ds.foldl (fun a c => 10 * a + digitVal c) 0

/-- Value of a matched token `intPart . fracPart`. -/
def tokenVal (intPart fracPart : List Char) : ℚ :=
  (digitsVal intPart : ℚ) + (digitsVal fracPart : ℚ) / (10 : ℚ) ^ fracPart.length

/-- Python `str.strip`: drop leading and trailing whitespace. -/
def stripWs (cs : List Char) : List Char :=
  ((cs.dropWhile Char.isWhitespace).reverse.dropWhile Char.isWhitespace).reverse

/-- Embedding of `DataPreprocessor.clean_price` on the character list
of the string.  The argument is `none` for a missing (`pd.isna`)
value. -/
def clean_price (s? : Option (List Char)) : ℚ :=
  match s? with
  | none => 0
  | some s =>
    let cs := s.filter (fun c => !(c == '₹' || c == ','))
    match findNumberToken (stripWs cs) with
    | none => 0
    | some p => tokenVal p.1 p.2

/-! ### Data preprocessor: `prepare_features` (src/data_preprocessor.py
lines 138-161)

After the mandatory-column check and the one-hot expansion (pandas
glue), the function computes per-column variances (`np.var`, population
variance), keeps the columns with variance strictly above `1e-8`,
raises when none survives, standardizes the survivors
(`StandardScaler`: subtract the column mean, divide by the column
standard deviation), and replaces any NaN or infinite entry of the
scaled matrix by `0.0`.  The matrix is modelled column-wise over `ℚ`;
the square root inside `StandardScaler` is an oracle `sqrtv` giving the
scale of each column, and entries after the division live in `FVal`,
which has the IEEE non-finite values the final `np.nan_to_num` step
eliminates. -/

/-- Column mean (`np.mean`); division by zero yields 0 in `ℚ`, and the
empty column is filtered out before this is ever used. -/
def colMean (c : List ℚ) : ℚ := c.sum / (c.length : ℚ)

/-- Population variance of a column (`np.var`, `ddof = 0`). -/
def colVariance (c : List ℚ) : ℚ :=
  ((c.map (fun x => (x - colMean c) ^ 2)).sum) / (c.length : ℚ)

/-- The standardized form of a column: subtract the mean, divide by the
scale. -/
def scaledCol (c : List ℚ) (s : ℚ) : List ℚ :=
  c.map (fun x => (x - colMean c) / s)

/-- A floating-point value: finite, NaN, or a signed infinity. -/
inductive FVal where
  | fin (q : ℚ)
  | nan
  | pinf
  | ninf
deriving DecidableEq, Repr

/-- IEEE division used by the scaler: a zero divisor produces NaN or a
signed infinity, otherwise the exact quotient. -/
def fdiv (x s : ℚ) : FVal :=
  if s = 0 then (if x = 0 then .nan else if 0 < x then .pinf else .ninf)
  else .fin (x / s)

/-- `np.nan_to_num(·, nan=0.0, posinf=0.0, neginf=0.0)` on one entry. -/
def nanToNum (v : FVal) : FVal :=
  match v with
  | .fin q => .fin q
  | _ => .fin 0

/-- Embedding of `DataPreprocessor.prepare_features` from the variance
filter on: keep the columns with variance above `1e-8`, fail
(`ValueError`) when none is left, standardize each survivor with the
scale `sqrtv c` (the library's square root of its variance), and
sanitize non-finite entries to 0. -/
def prepare_features (sqrtv : List ℚ → ℚ) (cols : List (List ℚ)) :
    Option (List (List FVal)) :=
  let kept := cols.filter (fun c => (1/100000000 : ℚ) < colVariance c)
  if kept.isEmpty then none
  else some (kept.map (fun c => c.map (fun x => nanToNum (fdiv (x - colMean c) (sqrtv c)))))

/-! ## Lemmas about the k-means candidate search -/

/-- Membership in the candidate range mirrors Python's half-open
`range(kmin, min(kmax + 1, n // 2))`. -/
theorem mem_kValues {kmin kmax n k : ℕ} :
    k ∈ kValues kmin kmax n ↔ kmin ≤ k ∧ k < min (kmax + 1) (n / 2) := by
  unfold kValues
  rw [List.mem_range'_1]
  omega

/-- The candidate the running argmax settles on comes from the scanned
list or is the seed. -/
theorem argmaxFold_mem (f : ℕ → ℚ) (ks : List ℕ) (b : ℕ × ℚ) :
    (ks.foldl (argmaxStep f) b).1 = b.1 ∨ (ks.foldl (argmaxStep f) b).1 ∈ ks := by
  induction ks generalizing b with
  | nil => exact Or.inl rfl
  | cons k ks ih =>
    rw [List.foldl_cons]
    rcases ih (argmaxStep f b k) with h | h
    · rw [h]
      unfold argmaxStep
      by_cases hc : b.2 < f k
      · rw [if_pos hc]
        exact Or.inr (List.mem_cons_self k ks)
      · rw [if_neg hc]
        exact Or.inl rfl
    · exact Or.inr (List.mem_cons_of_mem k h)

/-- When the seed's score and every scanned score is negative, the
running maximum stays negative. -/
theorem argmaxFold_neg (f : ℕ → ℚ) (ks : List ℕ) (b : ℕ × ℚ)
    (hb : b.2 < 0) (h : ∀ j ∈ ks, f j < 0) :
    (ks.foldl (argmaxStep f) b).2 < 0 := by
  induction ks generalizing b with
  | nil => exact hb
  | cons k ks ih =>
    rw [List.foldl_cons]
    refine ih (argmaxStep f b k) ?_ (fun j hj => h j (List.mem_cons_of_mem k hj))
    unfold argmaxStep
    by_cases hc : b.2 < f k
    · rw [if_pos hc]
      exact h k (List.mem_cons_self k ks)
    · rwa [if_neg hc]

/-- The selected count is the configured minimum or one of the scanned
candidates. -/
theorem find_optimal_k_mem (scoreOf : ℕ → Option ℚ) (kmin kmax n : ℕ) :
    find_optimal_k scoreOf kmin kmax n = kmin ∨
      find_optimal_k scoreOf kmin kmax n ∈ kValues kmin kmax n := by
  unfold find_optimal_k
  cases hkv : kValues kmin kmax n with
  | nil => exact Or.inl rfl
  | cons k ks =>
    simp only
    by_cases hneg :
        (ks.foldl (argmaxStep fun j => ((scoreOf j).getD (-1) : ℚ)) (k, (scoreOf k).getD (-1))).2 < 0
    · rw [if_pos hneg]
      exact Or.inl rfl
    · rw [if_neg hneg]
      rcases argmaxFold_mem (fun j => ((scoreOf j).getD (-1) : ℚ)) ks (k, (scoreOf k).getD (-1)) with
        h | h
      · exact Or.inr (h ▸ List.mem_cons_self k ks)
      · exact Or.inr (List.mem_cons_of_mem k h)

/-! ## Claims about `find_optimal_k` -/

/-- Claim C1, counterexample.  The claim states that with the default
`k_range = (2, 10)` the search evaluates the closed range
`[2, min(10, n/2)]` and that the selected count never exceeds half the
sample count.  Both parts fail on the code: with `n = 20` rows, the
claimed range `[2, min(10, 20/2)]` contains the candidate 10, yet the
code's half-open `range(2, min(11, 20//2))` stops at 9; and with
`n = 3` rows the candidate range is empty, so the search falls back to
`k_range[0] = 2`, which exceeds half of 3. -/
theorem find_optimal_k_claim_counterexample :
    (10 ∉ kValues 2 10 20 ∧ 2 ≤ 10 ∧ 10 ≤ min 10 (20 / 2)) ∧
    find_optimal_k (fun _ => none) 2 10 3 = 2 ∧
    ¬ (2 * find_optimal_k (fun _ => none) 2 10 3 ≤ 3) := by
  decide

/-- Claim C1 (amended): with the default `k_range = (2, 10)` the search
evaluates exactly the candidate counts of the closed integer range
`[2, min(10, n/2 - 1)]` (equivalently `2 ≤ k ≤ 10` and `k < n/2`,
integer division), and the count it selects — whatever the silhouette
oracle answers — is never below 2 and, whenever `n ≥ 4`, never above
half the sample count. -/
theorem find_optimal_k_range_and_bounds (scoreOf : ℕ → Option ℚ) (n : ℕ) :
    (∀ k, k ∈ kValues 2 10 n ↔ 2 ≤ k ∧ k ≤ min 10 (n / 2 - 1)) ∧
    2 ≤ find_optimal_k scoreOf 2 10 n ∧
    (4 ≤ n → 2 * find_optimal_k scoreOf 2 10 n ≤ n) := by
  refine ⟨fun k => ?_, ?_, fun hn => ?_⟩
  · rw [mem_kValues]
    omega
  · rcases find_optimal_k_mem scoreOf 2 10 n with h | h
    · omega
    · exact (mem_kValues.mp h).1
  · rcases find_optimal_k_mem scoreOf 2 10 n with h | h
    · omega
    · have := (mem_kValues.mp h).2
      omega

/-- Witness for the amended claim C1 at `n = 20` with an oracle failing
every candidate. -/
theorem find_optimal_k_range_and_bounds_witness :
    (∀ k, k ∈ kValues 2 10 20 ↔ 2 ≤ k ∧ k ≤ min 10 (20 / 2 - 1)) ∧
    2 ≤ find_optimal_k (fun _ => none) 2 10 20 ∧
    (4 ≤ 20 → 2 * find_optimal_k (fun _ => none) 2 10 20 ≤ 20) :=
  find_optimal_k_range_and_bounds (fun _ => none) 20

/-- Claim C7: when every evaluated candidate's silhouette score (with
the `-1` sentinel standing in for degenerate or failing candidates) is
below 0, `find_optimal_k` with the default range returns `k_range[0]`,
which bounds every candidate of the search range from below. -/
theorem find_optimal_k_all_negative (scoreOf : ℕ → Option ℚ) (n : ℕ)
    (h : ∀ k ∈ kValues 2 10 n, ((scoreOf k).getD (-1) : ℚ) < 0) :
    find_optimal_k scoreOf 2 10 n = 2 ∧ ∀ k ∈ kValues 2 10 n, 2 ≤ k := by
  constructor
  · unfold find_optimal_k
    cases hkv : kValues 2 10 n with
    | nil => rfl
    | cons k ks =>
      simp only
      rw [if_pos]
      refine argmaxFold_neg _ ks (k, (scoreOf k).getD (-1)) ?_ ?_
      · exact h k (hkv ▸ List.mem_cons_self k ks)
      · exact fun j hj => h j (hkv ▸ List.mem_cons_of_mem k hj)
  · exact fun k hk => (mem_kValues.mp hk).1

/-- Witness for claim C7 at `n = 20` with an oracle on which every
candidate records the sentinel. -/
theorem find_optimal_k_all_negative_witness :
    find_optimal_k (fun _ => none) 2 10 20 = 2 ∧ ∀ k ∈ kValues 2 10 20, 2 ≤ k :=
  find_optimal_k_all_negative (fun _ => none) 20 (by decide)

/-! ## Lemmas about the DBSCAN grid search -/

/-- A combination the loop body does not score leaves the state as it
was. -/
theorem dbStep_not_scored (run : ℚ → ℕ → List Int) (sil : ℚ → ℕ → Option ℚ)
    (st : DbState) (c : ℚ × ℕ) (h : scoreEntry run sil c = none) :
    dbStep run sil st c = st := by
  unfold dbStep
  by_cases h1 : 2 ≤ nClusters (run c.1 c.2) ∧ noiseRatioSearch (run c.1 c.2) < 1/2
  · rw [if_pos h1]
    by_cases h2 : nClusters (run c.1 c.2) * 2 ≤ nValid (run c.1 c.2)
    · rw [if_pos h2]
      unfold scoreEntry at h
      rw [if_pos ⟨h1.1, h1.2, h2⟩] at h
      cases hsil : sil c.1 c.2 with
      | none => rfl
      | some s =>
        rw [hsil] at h
        simp at h
    · rw [if_neg h2]
  · rw [if_neg h1]

/-- A combination the loop body scores updates the state exactly by the
strictly-better-or-tie-with-more-clusters rule. -/
theorem dbStep_scored (run : ℚ → ℕ → List Int) (sil : ℚ → ℕ → Option ℚ)
    (st : DbState) (c : ℚ × ℕ) (b : ScoredCombo)
    (h : scoreEntry run sil c = some b) :
    dbStep run sil st c =
      if st.bestScore < b.score ∨ (b.score = st.bestScore ∧ st.bestN < b.nc) then
        ⟨b.score, b.eps, b.ms, b.nc⟩
      else st := by
  unfold scoreEntry at h
  by_cases hv : 2 ≤ nClusters (run c.1 c.2) ∧ noiseRatioSearch (run c.1 c.2) < 1/2 ∧
      nClusters (run c.1 c.2) * 2 ≤ nValid (run c.1 c.2)
  · rw [if_pos hv] at h
    cases hsil : sil c.1 c.2 with
    | none =>
      rw [hsil] at h
      simp at h
    | some s =>
      rw [hsil] at h
      simp only [Option.map_some'] at h
      have hb := Option.some.inj h
      subst hb
      unfold dbStep
      rw [if_pos ⟨hv.1, hv.2.1⟩, if_pos hv.2.2, hsil]
  · rw [if_neg hv] at h
    simp at h

/-- When no combination of the list is scored, the fold leaves the
state untouched. -/
theorem dbFold_no_scored (run : ℚ → ℕ → List Int) (sil : ℚ → ℕ → Option ℚ)
    (l : List (ℚ × ℕ)) (st : DbState) (h : scoredOf run sil l = []) :
    l.foldl (dbStep run sil) st = st := by
  induction l generalizing st with
  | nil => rfl
  | cons c l ih =>
    unfold scoredOf at h ih
    rw [List.filterMap_cons] at h
    cases hfc : scoreEntry run sil c with
    | none =>
      rw [hfc] at h
      rw [List.foldl_cons, dbStep_not_scored run sil st c hfc]
      exact ih st h
    | some b =>
      rw [hfc] at h
      simp at h

/-- Invariant of the grid-search fold: starting from a state that is
the initial one (nothing scored yet) or holds a maximal scored
combination of the processed prefix, and provided every silhouette
score exceeds the initializer `-1`, the fold ends in the initial state
(nothing scored at all) or holds a maximal scored combination, where
maximal means: every scored combination scores strictly lower or ties
with at most as many clusters. -/
theorem dbFold_inv (run : ℚ → ℕ → List Int) (sil : ℚ → ℕ → Option ℚ)
    (l : List (ℚ × ℕ)) (ps : List ScoredCombo) (st : DbState)
    (hinv : (ps = [] ∧ st = dbInit) ∨ ∃ sc ∈ ps, stMatches st sc ∧ ∀ a ∈ ps, lexLE a sc)
    (hpos : ∀ a ∈ ps ++ scoredOf run sil l, (-1 : ℚ) < a.score) :
    (ps ++ scoredOf run sil l = [] ∧ l.foldl (dbStep run sil) st = dbInit) ∨
      ∃ sc ∈ ps ++ scoredOf run sil l, stMatches (l.foldl (dbStep run sil) st) sc ∧
        ∀ a ∈ ps ++ scoredOf run sil l, lexLE a sc := by
  induction l generalizing ps st with
  | nil =>
    rw [show scoredOf run sil [] = [] from rfl, List.append_nil] at hpos ⊢
    rcases hinv with ⟨hps, hst⟩ | h
    · exact Or.inl ⟨hps, hst⟩
    · exact Or.inr h
  | cons c l ih =>
    rw [List.foldl_cons]
    cases hfc : scoreEntry run sil c with
    | none =>
      have hsc : scoredOf run sil (c :: l) = scoredOf run sil l := by
        unfold scoredOf
        rw [List.filterMap_cons, hfc]
      rw [hsc] at hpos ⊢
      rw [dbStep_not_scored run sil st c hfc]
      exact ih ps st hinv hpos
    | some b =>
      have hsc : scoredOf run sil (c :: l) = b :: scoredOf run sil l := by
        unfold scoredOf
        rw [List.filterMap_cons, hfc]
      rw [hsc] at hpos ⊢
      have hassoc : ps ++ b :: scoredOf run sil l = (ps ++ [b]) ++ scoredOf run sil l := by
        simp
      rw [hassoc] at hpos ⊢
      rw [dbStep_scored run sil st c b hfc]
      have hbpos : (-1 : ℚ) < b.score := by
        refine hpos b ?_
        simp
      refine ih (ps ++ [b]) _ ?_ hpos
      rcases hinv with ⟨hps, hst⟩ | ⟨scb, hmem, hmatch, hmax⟩
      · subst hps
        subst hst
        rw [if_pos (Or.inl (show dbInit.bestScore < b.score from hbpos))]
        refine Or.inr ⟨b, by simp, ⟨rfl, rfl, rfl, rfl⟩, ?_⟩
        intro a ha
        simp at ha
        subst ha
        exact Or.inr ⟨rfl, le_refl _⟩
      · by_cases hcond : st.bestScore < b.score ∨ (b.score = st.bestScore ∧ st.bestN < b.nc)
        · rw [if_pos hcond]
          refine Or.inr ⟨b, by simp, ⟨rfl, rfl, rfl, rfl⟩, ?_⟩
          intro a ha
          rw [List.mem_append] at ha
          rcases ha with ha | ha
          · have hab := hmax a ha
            rcases hcond with hlt | ⟨heq, hnc⟩
            · rw [hmatch.1] at hlt
              rcases hab with h1 | ⟨h2, _⟩
              · exact Or.inl (lt_trans h1 hlt)
              · exact Or.inl (h2 ▸ hlt)
            · rw [hmatch.1] at heq
              rw [hmatch.2.2.2] at hnc
              rcases hab with h1 | ⟨h2, h3⟩
              · exact Or.inl (heq ▸ h1)
              · exact Or.inr ⟨h2.trans heq.symm, le_of_lt (lt_of_le_of_lt h3 hnc)⟩
          · simp at ha
            subst ha
            exact Or.inr ⟨rfl, le_refl _⟩
        · rw [if_neg hcond]
          push_neg at hcond
          refine Or.inr ⟨scb, by simp [hmem], hmatch, ?_⟩
          intro a ha
          rw [List.mem_append] at ha
          rcases ha with ha | ha
          · exact hmax a ha
          · simp at ha
            subst ha
            have h1 : a.score ≤ scb.score := hmatch.1 ▸ hcond.1
            rcases lt_or_eq_of_le h1 with h2 | h2
            · exact Or.inl h2
            · refine Or.inr ⟨h2, ?_⟩
              have := hcond.2 (h2.trans hmatch.1.symm)
              rw [hmatch.2.2.2] at this
              exact this

/-! ## Claims about the DBSCAN grid -/

/-- Claim C5, counterexample.  The claim states that radius 2.0 is
among the values tried.  It is not: `np.arange(0.3, 2.0, 0.1)` is
half-open and stops at 1.9 (17 values), so no grid combination carries
radius 2.0. -/
theorem dbscan_grid_counterexample :
    (2 : ℚ) ∉ epsGrid ∧ ((2 : ℚ), 3) ∉ comboGrid ∧ ((2 : ℚ), 5) ∉ comboGrid ∧
      ((2 : ℚ), 7) ∉ comboGrid ∧ ((2 : ℚ), 10) ∉ comboGrid ∧ ((2 : ℚ), 15) ∉ comboGrid := by
  decide

/-- Claim C5 (amended): when radius and minimum-neighbor count are not
both supplied, the search tries exactly the 17 radii
`0.3, 0.4, …, 1.9` — the half-open numpy range stops before 2.0 —
crossed with the minimum-neighbor counts `{3, 5, 7, 10, 15}`
(85 combinations). -/
theorem dbscan_grid_amended :
    epsGrid = [3/10, 2/5, 1/2, 3/5, 7/10, 4/5, 9/10, 1, 11/10,
      6/5, 13/10, 7/5, 3/2, 8/5, 17/10, 9/5, 19/10] ∧
    minSamplesGrid = [3, 5, 7, 10, 15] ∧
    comboGrid.length = 17 * 5 ∧
    (∀ e ∈ epsGrid, ∀ m ∈ minSamplesGrid, (e, m) ∈ comboGrid) ∧
    (∀ c ∈ comboGrid, c.1 ∈ epsGrid ∧ c.2 ∈ minSamplesGrid) ∧
    (2 : ℚ) ∉ epsGrid := by
  decide

/-- Witness for the amended claim C5: the largest grid combination. -/
theorem dbscan_grid_amended_witness : ((19 : ℚ)/10, 15) ∈ comboGrid :=
  dbscan_grid_amended.2.2.2.1 (19/10) (by decide) 15 (by decide)

/-- Claim C6: when no grid combination is ever scored, the search
returns exactly radius 0.8 and minimum-neighbor count 5. -/
theorem find_optimal_dbscan_params_fallback (run : ℚ → ℕ → List Int)
    (sil : ℚ → ℕ → Option ℚ) (h : scoredCombos run sil = []) :
    find_optimal_dbscan_params run sil = (4/5, 5) := by
  unfold find_optimal_dbscan_params
  rw [dbFold_no_scored run sil comboGrid dbInit h]
  rfl

/-- Witness for claim C6: on empty label answers nothing is viable and
the fallback pair is returned. -/
theorem find_optimal_dbscan_params_fallback_witness :
    find_optimal_dbscan_params (fun _ _ => []) (fun _ _ => none) = (4/5, 5) :=
  find_optimal_dbscan_params_fallback (fun _ _ => []) (fun _ _ => none) (by decide)

/-- Claim C2: a grid combination is scored only if its label assignment
has at least 2 clusters (outlier sentinel excluded), outlier ratio
strictly below one half, and at least twice as many non-outlier points
as clusters; and — provided every returned silhouette score exceeds the
`-1` initializer, as a silhouette of non-identical points does — when
at least one combination is scored, the pair returned is a scored
combination that every scored combination either scores strictly below,
or ties with while producing at most as many clusters. -/
theorem find_optimal_dbscan_params_selection (run : ℚ → ℕ → List Int)
    (sil : ℚ → ℕ → Option ℚ)
    (hpos : ∀ a ∈ scoredCombos run sil, (-1 : ℚ) < a.score) :
    (∀ a ∈ scoredCombos run sil,
        2 ≤ nClusters (run a.eps a.ms) ∧ noiseRatioSearch (run a.eps a.ms) < 1/2 ∧
          nClusters (run a.eps a.ms) * 2 ≤ nValid (run a.eps a.ms) ∧
          sil a.eps a.ms = some a.score ∧ a.nc = nClusters (run a.eps a.ms)) ∧
    (scoredCombos run sil ≠ [] →
      ∃ sc ∈ scoredCombos run sil,
        find_optimal_dbscan_params run sil = (sc.eps, sc.ms) ∧
        ∀ a ∈ scoredCombos run sil,
          a.score < sc.score ∨ (a.score = sc.score ∧ a.nc ≤ sc.nc)) := by
  constructor
  · intro a ha
    unfold scoredCombos scoredOf at ha
    rw [List.mem_filterMap] at ha
    obtain ⟨c, _, hfc⟩ := ha
    unfold scoreEntry at hfc
    by_cases hv : 2 ≤ nClusters (run c.1 c.2) ∧ noiseRatioSearch (run c.1 c.2) < 1/2 ∧
        nClusters (run c.1 c.2) * 2 ≤ nValid (run c.1 c.2)
    · rw [if_pos hv] at hfc
      rw [Option.map_eq_some'] at hfc
      obtain ⟨s, hs, hb⟩ := hfc
      subst hb
      exact ⟨hv.1, hv.2.1, hv.2.2, hs, rfl⟩
    · rw [if_neg hv] at hfc
      exact absurd hfc (Option.noConfusion)
  · intro hne
    have hfold := dbFold_inv run sil comboGrid [] dbInit (Or.inl ⟨rfl, rfl⟩)
      (fun a ha => hpos a (by simpa using ha))
    rw [List.nil_append] at hfold
    rcases hfold with ⟨h1, _⟩ | ⟨sc, hmem, hmatch, hmax⟩
    · exact absurd h1 hne
    · refine ⟨sc, hmem, ?_, fun a ha => hmax a ha⟩
      unfold find_optimal_dbscan_params
      have hne2 : (comboGrid.foldl (dbStep run sil) dbInit).bestScore ≠ -1 := by
        rw [hmatch.1]
        exact ne_of_gt (hpos sc hmem)
      rw [if_neg hne2, hmatch.2.1, hmatch.2.2.1]

/-- Witness for claim C2: four points in two clusters make every grid
combination viable, all scored 0; the returned pair is the first
combination `(0.3, 3)`. -/
theorem find_optimal_dbscan_params_selection_witness :
    (∀ a ∈ scoredCombos (fun _ _ => [0, 0, 1, 1]) (fun _ _ => some 0),
        2 ≤ nClusters ((fun _ _ => [0, 0, 1, 1]) a.eps a.ms) ∧
          noiseRatioSearch ((fun _ _ => [0, 0, 1, 1]) a.eps a.ms) < 1/2 ∧
          nClusters ((fun _ _ => [0, 0, 1, 1]) a.eps a.ms) * 2 ≤
            nValid ((fun _ _ => [0, 0, 1, 1]) a.eps a.ms) ∧
          (fun _ _ => some 0) a.eps a.ms = some a.score ∧
          a.nc = nClusters ((fun _ _ => [0, 0, 1, 1]) a.eps a.ms)) ∧
    (scoredCombos (fun _ _ => [0, 0, 1, 1]) (fun _ _ => some 0) ≠ [] →
      ∃ sc ∈ scoredCombos (fun _ _ => [0, 0, 1, 1]) (fun _ _ => some 0),
        find_optimal_dbscan_params (fun _ _ => [0, 0, 1, 1]) (fun _ _ => some 0) =
          (sc.eps, sc.ms) ∧
        ∀ a ∈ scoredCombos (fun _ _ => [0, 0, 1, 1]) (fun _ _ => some 0),
          a.score < sc.score ∨ (a.score = sc.score ∧ a.nc ≤ sc.nc)) :=
  find_optimal_dbscan_params_selection (fun _ _ => [0, 0, 1, 1]) (fun _ _ => some 0)
    (by decide)

/-! ## Claim about `calculate_metrics` -/

/-- Claim C3: whenever the viability condition fails (fewer than 2
distinct non-outlier labels, or fewer non-outlier rows than twice the
cluster count), `calculate_metrics` reports the sentinels
silhouette = 0.0, Davies-Bouldin = +infinity, Calinski-Harabasz = 0.0 —
whatever the metric oracles would answer — and in every case it reports
the cluster count (outlier excluded), the outlier count and the outlier
ratio. -/
theorem calculate_metrics_spec (sil db ch : Option ℚ) (labels : List Int) :
    ((nClusters labels < 2 ∨ nValid labels < 2 * nClusters labels) →
      (calculate_metrics sil db ch labels).silhouette_score = MetricVal.val 0 ∧
      (calculate_metrics sil db ch labels).davies_bouldin_score = MetricVal.inf ∧
      (calculate_metrics sil db ch labels).calinski_harabasz_score = MetricVal.val 0) ∧
    (calculate_metrics sil db ch labels).n_clusters = nClusters labels ∧
    (calculate_metrics sil db ch labels).n_noise = labels.count (-1) ∧
    (calculate_metrics sil db ch labels).noise_ratio = noiseRatioMetrics labels := by
  unfold calculate_metrics
  by_cases hv : 1 < nClusters labels ∧ nClusters labels * 2 ≤ nValid labels
  · rw [if_pos hv]
    exact ⟨fun h => absurd h (by omega), rfl, rfl, rfl⟩
  · rw [if_neg hv]
    exact ⟨fun _ => ⟨rfl, rfl, rfl⟩, rfl, rfl, rfl⟩

/-- Witness for claim C3: a single-cluster assignment fails viability
and receives the three sentinels. -/
theorem calculate_metrics_spec_witness :
    (calculate_metrics none none none [0, 0, 0]).silhouette_score = MetricVal.val 0 ∧
    (calculate_metrics none none none [0, 0, 0]).davies_bouldin_score = MetricVal.inf ∧
    (calculate_metrics none none none [0, 0, 0]).calinski_harabasz_score = MetricVal.val 0 :=
  (calculate_metrics_spec none none none [0, 0, 0]).1 (by decide)

/-! ## Lemmas and claims about the label normalizer -/

/-- The order the loop walks is strictly increasing: the distinct
labels sorted. -/
theorem sortedValidLabels_pairwise (labels : List Int) :
    (sortedValidLabels labels).Pairwise (fun a b => a < b) := by
  have hsorted : (sortedValidLabels labels).Pairwise (fun a b => a ≤ b) :=
    List.sorted_insertionSort _ _
  have hnodup : (sortedValidLabels labels).Pairwise (fun a b => a ≠ b) :=
    ((List.perm_insertionSort _ _).nodup_iff).mpr (List.nodup_dedup _)
  exact (hsorted.and hnodup).imp (fun h => lt_of_le_of_ne h.1 h.2)

/-- In a strictly increasing list the position of an element is the
number of elements below it. -/
theorem indexOf_eq_rank {s : List Int} (hs : s.Pairwise (fun a b => a < b))
    {x : Int} (hx : x ∈ s) :
    s.indexOf x = (s.filter (fun y => y < x)).length := by
  induction s with
  | nil => cases hx
  | cons a t ih =>
    rw [List.pairwise_cons] at hs
    by_cases hax : x = a
    · subst hax
      rw [List.indexOf_cons_self, List.filter_cons]
      have h1 : ¬ (decide (x < x) = true) := by simp
      rw [if_neg h1]
      have h2 : t.filter (fun y => decide (y < x)) = [] := by
        rw [List.filter_eq_nil_iff]
        intro b hb
        simp only [decide_eq_true_eq]
        exact not_lt_of_gt (hs.1 b hb)
      rw [h2]
      rfl
    · have hxt : x ∈ t := by
        rcases List.mem_cons.mp hx with h | h
        · exact absurd h hax
        · exact h
      rw [List.indexOf_cons_ne t (fun h => hax h.symm), List.filter_cons]
      have hax2 : a < x := hs.1 x hxt
      rw [if_pos (by simpa using hax2)]
      rw [List.length_cons, ih hs.2 hxt]

/-- Claim C4: `normalize_cluster_labels` maps each non-outlier label to
one plus the number of distinct non-outlier label values below it — so
the new labels are consecutive integers from 1 assigned in ascending
order of the original value — and maps the outlier sentinel `-1` to one
more than the number of real clusters; in particular it sends
`[1,2,3,-1]` to `[1,2,3,4]` and `[5,5,2,-1,2]` to `[2,2,1,3,1]`. -/
theorem normalize_cluster_labels_spec (labels : List Int) :
    normalize_cluster_labels labels =
      labels.map (fun l =>
        if l = -1 then ((distinctValid labels).length : Int) + 1
        else (((distinctValid labels).filter (fun y => y < l)).length : Int) + 1) ∧
    normalize_cluster_labels [1, 2, 3, -1] = [1, 2, 3, 4] ∧
    normalize_cluster_labels [5, 5, 2, -1, 2] = [2, 2, 1, 3, 1] := by
  refine ⟨?_, by decide, by decide⟩
  unfold normalize_cluster_labels
  refine List.map_congr_left ?_
  intro l hl
  have hperm : List.Perm (sortedValidLabels labels) (distinctValid labels) := by
    unfold sortedValidLabels
    exact List.perm_insertionSort _ _
  by_cases hl1 : l = -1
  · rw [if_pos hl1, if_pos hl1, hperm.length_eq]
  · rw [if_neg hl1, if_neg hl1]
    have hmem : l ∈ sortedValidLabels labels := by
      rw [hperm.mem_iff]
      unfold distinctValid
      rw [List.mem_dedup, List.mem_filter]
      exact ⟨hl, by simpa using hl1⟩
    rw [indexOf_eq_rank (sortedValidLabels_pairwise labels) hmem]
    rw [(hperm.filter (fun y => decide (y < l))).length_eq]

/-- The renumbering loop only writes through the working copy: the
`labels` component of the state never changes. -/
theorem foldl_normStep_labels (l : List (ℕ × Int)) (st : NormState) :
    (l.foldl normStep st).labels = st.labels := by
  induction l generalizing st with
  | nil => rfl
  | cons p l ih =>
    rw [List.foldl_cons]
    rw [ih]
    rfl

/-- The loop and the final outlier write never touch the `labels`
component of the state. -/
theorem normRun_labels_eq (labels : List Int) :
    (normRun labels).labels = labels := by
  unfold normRun
  dsimp only
  split
  · exact foldl_normStep_labels _ _
  · exact foldl_normStep_labels _ _

/-- The loop order is a permutation of the distinct non-outlier
labels, so it repeats no label. -/
theorem sortedValidLabels_nodup (labels : List Int) :
    (sortedValidLabels labels).Nodup :=
  ((List.perm_insertionSort _ _).nodup_iff).mpr (List.nodup_dedup _)

/-- A non-outlier label of the array occurs in the loop order. -/
theorem mem_sortedValidLabels {labels : List Int} {l : Int} (hl : l ∈ labels)
    (hne : l ≠ -1) : l ∈ sortedValidLabels labels := by
  unfold sortedValidLabels
  rw [(List.perm_insertionSort _ _).mem_iff]
  unfold distinctValid
  rw [List.mem_dedup, List.mem_filter]
  exact ⟨hl, by simpa using hne⟩

/-- Masked assignment through a mask computed on the base list acts
pointwise on a mapped view of that list. -/
theorem writeMask_map (L : List Int) (h : Int → Int) (v w : Int) :
    writeMask (L.map h) (L.map (fun x => x == v)) w =
      L.map (fun l => if l = v then w else h l) := by
  unfold writeMask
  rw [List.zip_map' h (fun x => x == v) L, List.map_map]
  refine List.map_congr_left (fun x _ => ?_)
  simp only [Function.comp]
  by_cases hx : x = v
  · rw [if_pos (by simp [hx]), if_pos hx]
  · rw [if_neg (by simp [hx]), if_neg hx]

/-- Folding the loop body keeps the copy a pointwise image of the
untouched input, accumulated by `hFold`. -/
theorem foldl_normStep_map (ps : List (ℕ × Int)) (L : List Int) (h : Int → Int) :
    ((ps.foldl normStep ⟨L, L.map h⟩).normalized) = L.map (hFold ps h) := by
  induction ps generalizing h with
  | nil => rfl
  | cons p ps ih =>
    rw [List.foldl_cons]
    have hstep : normStep ⟨L, L.map h⟩ p =
        ⟨L, L.map (fun l => if l = p.2 then (p.1 : Int) + 1 else h l)⟩ := by
      unfold normStep
      rw [writeMask_map]
    rw [hstep]
    exact ih _

/-- Pointwise effect of the whole renumbering loop: a value of the
(repetition-free) loop order receives its position plus one, offset by
the enumeration start; anything else keeps its previous image. -/
theorem hFold_enumFrom (sv : List Int) (hnd : sv.Nodup) (k : ℕ) (h : Int → Int)
    (l : Int) :
    hFold (sv.enumFrom k) h l =
      if l ∈ sv then ((k + sv.indexOf l : ℕ) : Int) + 1 else h l := by
  induction sv generalizing k h with
  | nil => simp [hFold]
  | cons v sv ih =>
    rw [List.nodup_cons] at hnd
    rw [show (v :: sv).enumFrom k = (k, v) :: sv.enumFrom (k + 1) from rfl]
    rw [show hFold ((k, v) :: sv.enumFrom (k + 1)) h =
      hFold (sv.enumFrom (k + 1)) (fun x => if x = v then (k : Int) + 1 else h x) from rfl]
    rw [ih hnd.2 (k + 1) _]
    by_cases hl : l ∈ sv
    · have hlv : l ≠ v := fun he => hnd.1 (he ▸ hl)
      rw [if_pos hl, if_pos (List.mem_cons_of_mem v hl)]
      rw [List.indexOf_cons_ne sv (fun he => hlv he.symm)]
      have harith : k + 1 + sv.indexOf l = k + (sv.indexOf l).succ := by omega
      rw [harith]
    · rw [if_neg hl]
      by_cases hlv : l = v
      · subst hlv
        rw [if_pos rfl, if_pos (List.mem_cons_self l sv), List.indexOf_cons_self]
        norm_num
      · rw [if_neg hlv, if_neg (fun hm => by
          rcases List.mem_cons.mp hm with h1 | h1
          · exact hlv h1
          · exact hl h1)]

/-- The imperative execution computes exactly the functional
relabeling: the copy returned by `normRun` is
`normalize_cluster_labels`. -/
theorem normRun_normalized_eq (labels : List Int) :
    (normRun labels).normalized = normalize_cluster_labels labels := by
  have hinit : (⟨labels, labels⟩ : NormState) = ⟨labels, labels.map id⟩ := by
    rw [List.map_id]
  have hlab : ((sortedValidLabels labels).enum.foldl normStep ⟨labels, labels⟩).labels
      = labels := foldl_normStep_labels _ _
  have hnorm : ((sortedValidLabels labels).enum.foldl normStep
      ⟨labels, labels⟩).normalized
      = labels.map (hFold ((sortedValidLabels labels).enum) id) := by
    rw [hinit]
    exact foldl_normStep_map _ labels id
  have hpoint : ∀ l ∈ labels, l ≠ -1 →
      hFold ((sortedValidLabels labels).enum) id l =
        ((sortedValidLabels labels).indexOf l : Int) + 1 := by
    intro l hl hne
    rw [show (sortedValidLabels labels).enum = (sortedValidLabels labels).enumFrom 0
      from rfl]
    rw [hFold_enumFrom _ (sortedValidLabels_nodup labels) 0 id l]
    rw [if_pos (mem_sortedValidLabels hl hne)]
    norm_num
  unfold normRun
  dsimp only
  rw [hlab, hnorm]
  unfold normalize_cluster_labels
  by_cases hany : ((labels.map (fun x => x == -1)).any (fun b => b)) = true
  · rw [if_pos hany, writeMask_map labels _ (-1) _]
    refine List.map_congr_left (fun l hl => ?_)
    by_cases hne : l = -1
    · rw [if_pos hne, if_pos hne]
    · rw [if_neg hne, if_neg hne]
      exact hpoint l hl hne
  · rw [if_neg hany, hnorm]
    have hnonoise : ∀ l ∈ labels, l ≠ -1 := by
      intro l hl hcontra
      refine hany ?_
      rw [List.any_eq_true]
      refine ⟨l == -1, List.mem_map_of_mem (fun x => x == -1) hl, ?_⟩
      rw [hcontra]
      rfl
    refine List.map_congr_left (fun l hl => ?_)
    rw [if_neg (hnonoise l hl)]
    exact hpoint l hl (hnonoise l hl)

/-- Claim C10: `normalize_cluster_labels` never mutates its argument —
running the imperative body from the state (input array, fresh copy),
the input component of the final state is the input unchanged, and what
is returned is the separately built copy holding the relabeling. -/
theorem normRun_preserves_input (labels : List Int) :
    (normRun labels).labels = labels ∧
    (normRun labels).normalized = normalize_cluster_labels labels :=
  ⟨normRun_labels_eq labels, normRun_normalized_eq labels⟩

/-! ## Lemmas and claim about `clean_price` -/

/-- A digit is neither the currency sign nor the thousands comma. -/
theorem isDigitC_not_currency {c : Char} (h : isDigitC c = true) :
    (c == '₹' || c == ',') = false := by
  unfold isDigitC at h
  rw [Bool.and_eq_true, decide_eq_true_eq, decide_eq_true_eq] at h
  rw [Bool.or_eq_false_iff, beq_eq_false_iff_ne, beq_eq_false_iff_ne]
  constructor
  · intro he
    subst he
    exact absurd h (by decide)
  · intro he
    subst he
    exact absurd h (by decide)

/-- A digit is not whitespace. -/
theorem isDigitC_not_whitespace {c : Char} (h : isDigitC c = true) :
    c.isWhitespace = false := by
  unfold isDigitC at h
  rw [Bool.and_eq_true, decide_eq_true_eq, decide_eq_true_eq] at h
  unfold Char.isWhitespace
  rw [Bool.or_eq_false_iff, Bool.or_eq_false_iff, Bool.or_eq_false_iff]
  refine ⟨⟨⟨?_, ?_⟩, ?_⟩, ?_⟩ <;>
    · rw [decide_eq_false_iff_not]
      intro he
      subst he
      exact absurd h (by decide)

/-- `dropWhile` is the identity when the predicate holds nowhere. -/
theorem dropWhile_of_all_false {p : Char → Bool} (l : List Char)
    (h : ∀ c ∈ l, p c = false) : l.dropWhile p = l := by
  cases l with
  | nil => rfl
  | cons a t =>
    rw [List.dropWhile_cons, if_neg]
    rw [h a (List.mem_cons_self a t)]
    exact Bool.false_ne_true

/-- Stripping does nothing to a string with no whitespace. -/
theorem stripWs_of_no_ws (l : List Char) (h : ∀ c ∈ l, c.isWhitespace = false) :
    stripWs l = l := by
  unfold stripWs
  rw [dropWhile_of_all_false l h]
  rw [dropWhile_of_all_false l.reverse (fun c hc => h c (List.mem_reverse.mp hc))]
  exact List.reverse_reverse l

/-- A maximal digit run: `takeDigits` splits a digit prefix off exactly
at the first non-digit. -/
theorem takeDigits_append (d rest : List Char) (hd : ∀ c ∈ d, isDigitC c = true)
    (hrest : ∀ r rs, rest = r :: rs → isDigitC r = false) :
    takeDigits (d ++ rest) = (d, rest) := by
  induction d with
  | nil =>
    cases hr : rest with
    | nil => rfl
    | cons r rs =>
      rw [List.nil_append]
      unfold takeDigits
      rw [if_neg]
      rw [hrest r rs hr]
      exact Bool.false_ne_true
  | cons c cs ih =>
    rw [List.cons_append]
    unfold takeDigits
    rw [if_pos (hd c (List.mem_cons_self c cs))]
    rw [ih (fun x hx => hd x (List.mem_cons_of_mem c hx))]

/-- A list of digits is one whole digit run. -/
theorem takeDigits_all (l : List Char) (h : ∀ c ∈ l, isDigitC c = true) :
    takeDigits l = (l, []) := by
  have hap := takeDigits_append l [] h (fun r rs hr => by cases hr)
  rwa [List.append_nil] at hap

/-- The scanner finds a clean decimal string whole: integer digits, the
dot, fraction digits. -/
theorem findNumberToken_clean (ds fs : List Char) (hne : ds ≠ [])
    (hds : ∀ c ∈ ds, isDigitC c = true) (hfs : ∀ c ∈ fs, isDigitC c = true) :
    findNumberToken (ds ++ '.' :: fs) = some (ds, fs) := by
  cases ds with
  | nil => exact absurd rfl hne
  | cons d0 ds0 =>
    rw [List.cons_append]
    unfold findNumberToken
    rw [if_pos (hds d0 (List.mem_cons_self d0 ds0))]
    rw [takeDigits_append ds0 ('.' :: fs)
      (fun x hx => hds x (List.mem_cons_of_mem d0 hx))
      (fun r rs hr => by
        cases hr
        decide)]
    simp only
    rw [takeDigits_all fs hfs]

/-- The scanner finds a clean integer string whole. -/
theorem findNumberToken_clean_int (ds : List Char) (hne : ds ≠ [])
    (hds : ∀ c ∈ ds, isDigitC c = true) :
    findNumberToken ds = some (ds, []) := by
  cases ds with
  | nil => exact absurd rfl hne
  | cons d0 ds0 =>
    unfold findNumberToken
    rw [if_pos (hds d0 (List.mem_cons_self d0 ds0))]
    rw [takeDigits_all ds0 (fun x hx => hds x (List.mem_cons_of_mem d0 hx))]

/-- Nothing in a clean decimal string is removed by the currency and
comma replacement. -/
theorem filter_clean (ds fs : List Char)
    (hds : ∀ c ∈ ds, isDigitC c = true) (hfs : ∀ c ∈ fs, isDigitC c = true) :
    (ds ++ '.' :: fs).filter (fun c => !(c == '₹' || c == ',')) = ds ++ '.' :: fs := by
  rw [List.filter_eq_self]
  intro a ha
  rw [Bool.not_eq_true']
  rcases List.mem_append.mp ha with h | h
  · exact isDigitC_not_currency (hds a h)
  · rcases List.mem_cons.mp h with h | h
    · subst h
      decide
    · exact isDigitC_not_currency (hfs a h)

/-- No whitespace occurs in a clean decimal string. -/
theorem no_ws_clean (ds fs : List Char)
    (hds : ∀ c ∈ ds, isDigitC c = true) (hfs : ∀ c ∈ fs, isDigitC c = true) :
    ∀ c ∈ ds ++ '.' :: fs, c.isWhitespace = false := by
  intro a ha
  rcases List.mem_append.mp ha with h | h
  · exact isDigitC_not_whitespace (hds a h)
  · rcases List.mem_cons.mp h with h | h
    · subst h
      decide
    · exact isDigitC_not_whitespace (hfs a h)

/-- Cleaning a clean decimal string returns exactly its value. -/
theorem clean_price_of_clean (ds fs : List Char) (hne : ds ≠ [])
    (hds : ∀ c ∈ ds, isDigitC c = true) (hfs : ∀ c ∈ fs, isDigitC c = true) :
    clean_price (some (ds ++ '.' :: fs)) = tokenVal ds fs := by
  unfold clean_price
  dsimp only
  rw [filter_clean ds fs hds hfs]
  rw [stripWs_of_no_ws _ (no_ws_clean ds fs hds hfs)]
  rw [findNumberToken_clean ds fs hne hds hfs]

/-- Claim C8: price cleaning is idempotent — a string that is already a
clean decimal rendering of a number cleans to exactly that number, so
cleaning the rendering of any cleaned value returns the value again;
cleaning `"₹1,234.50"` returns `1234.5`, and a missing value cleans to
`0.0`. -/
theorem clean_price_idempotent (s ds fs : List Char) (hne : ds ≠ [])
    (hds : ∀ c ∈ ds, isDigitC c = true) (hfs : ∀ c ∈ fs, isDigitC c = true)
    (hval : tokenVal ds fs = clean_price (some s)) :
    clean_price (some (ds ++ '.' :: fs)) = clean_price (some s) ∧
    clean_price (some ("₹1,234.50".toList)) = 2469/2 ∧
    clean_price none = 0 := by
  refine ⟨?_, by decide, rfl⟩
  rw [clean_price_of_clean ds fs hne hds hfs]
  exact hval

/-- Witness for claim C8: `"7.25"` is the clean rendering of the value
of `"  ₹7.25"`, and re-cleaning it returns that value. -/
theorem clean_price_idempotent_witness :
    clean_price (some (['7'] ++ '.' :: ['2', '5'])) =
      clean_price (some ("  ₹7.25".toList)) ∧
    clean_price (some ("₹1,234.50".toList)) = 2469/2 ∧
    clean_price none = 0 :=
  clean_price_idempotent ("  ₹7.25".toList) ['7'] ['2', '5'] (by decide) (by decide)
    (by decide) (by decide)

/-! ## Lemmas and claim about `prepare_features` -/

theorem sum_map_sub_const (c : List ℚ) (m : ℚ) :
    (c.map (fun x => x - m)).sum = c.sum - (c.length : ℚ) * m := by
  induction c with
  | nil => simp
  | cons a t ih =>
    rw [List.map_cons, List.sum_cons, List.sum_cons, ih, List.length_cons]
    push_cast
    ring

theorem sum_map_div (c : List ℚ) (f : ℚ → ℚ) (s : ℚ) :
    (c.map (fun x => f x / s)).sum = (c.map f).sum / s := by
  induction c with
  | nil => simp
  | cons a t ih =>
    rw [List.map_cons, List.sum_cons, List.map_cons, List.sum_cons, ih, add_div]

/-- A standardized column is centered. -/
theorem colMean_scaled (c : List ℚ) (s : ℚ) (hc : c ≠ []) :
    colMean (scaledCol c s) = 0 := by
  have hn : (c.length : ℚ) ≠ 0 := by
    rw [Nat.cast_ne_zero]
    intro h
    exact hc (List.length_eq_zero.mp h)
  unfold colMean scaledCol
  rw [List.length_map, sum_map_div c (fun x => x - colMean c) s, sum_map_sub_const]
  unfold colMean
  have h1 : (c.length : ℚ) * (c.sum / (c.length : ℚ)) = c.sum := by
    field_simp
  rw [h1, sub_self, zero_div, zero_div]

/-- Standardizing divides the variance by the square of the scale. -/
theorem colVariance_scaled (c : List ℚ) (s : ℚ) (hc : c ≠ []) :
    colVariance (scaledCol c s) = colVariance c / s ^ 2 := by
  unfold colVariance
  rw [colMean_scaled c s hc]
  unfold scaledCol
  rw [List.length_map, List.map_map]
  have hfun : ((fun y => (y - 0) ^ 2) ∘ fun x => (x - colMean c) / s) =
      fun x => ((x - colMean c) ^ 2) / s ^ 2 := by
    funext x
    simp [div_pow]
  rw [hfun, sum_map_div c (fun x => (x - colMean c) ^ 2) (s ^ 2)]
  exact div_right_comm _ _ _

/-- With a nonzero scale the scaler's division is exact and the
sanitizer is the identity: the produced column is the finite image of
the standardized rational column. -/
theorem scaled_column_fin (c : List ℚ) (s : ℚ) (hs : s ≠ 0) :
    c.map (fun x => nanToNum (fdiv (x - colMean c) s)) = (scaledCol c s).map FVal.fin := by
  unfold scaledCol
  rw [List.map_map]
  refine List.map_congr_left (fun x _ => ?_)
  simp only [Function.comp]
  unfold fdiv nanToNum
  rw [if_neg hs]

/-- Claim C9: every column of a matrix `prepare_features` accepts is
the finite image of a rational column of variance exactly 1 — hence
above the `1e-8` threshold — and every entry of the result is a finite
value, provided the library square root is exact on each kept column
(its square is the column's variance). -/
theorem prepare_features_spec (sqrtv : List ℚ → ℚ) (cols : List (List ℚ))
    (out : List (List FVal))
    (hs : ∀ c ∈ cols, (1/100000000 : ℚ) < colVariance c → (sqrtv c) ^ 2 = colVariance c)
    (hout : prepare_features sqrtv cols = some out) :
    ∀ col ∈ out, ∃ cq : List ℚ, col = cq.map FVal.fin ∧
      colVariance cq = 1 ∧ (1/100000000 : ℚ) < colVariance cq ∧
      ∀ v ∈ col, ∃ q : ℚ, v = FVal.fin q := by
  unfold prepare_features at hout
  by_cases hempty : (cols.filter (fun c => decide ((1/100000000 : ℚ) < colVariance c))).isEmpty
  · rw [if_pos hempty] at hout
    exact absurd hout (Option.noConfusion)
  · rw [if_neg hempty] at hout
    have hout2 := Option.some.inj hout
    subst hout2
    intro col hcol
    rw [List.mem_map] at hcol
    obtain ⟨c, hc, hcoldef⟩ := hcol
    rw [List.mem_filter] at hc
    have hvar : (1/100000000 : ℚ) < colVariance c := by
      have := hc.2
      rwa [decide_eq_true_eq] at this
    have hsq : (sqrtv c) ^ 2 = colVariance c := hs c hc.1 hvar
    have hvarpos : (0 : ℚ) < colVariance c := lt_trans (by norm_num) hvar
    have hsne : sqrtv c ≠ 0 := by
      intro h0
      rw [h0] at hsq
      rw [← hsq] at hvarpos
      simp at hvarpos
    have hcne : c ≠ [] := by
      intro h0
      rw [h0] at hvar
      have : colVariance ([] : List ℚ) = 0 := by
        unfold colVariance
        simp
      rw [this] at hvar
      norm_num at hvar
    refine ⟨scaledCol c (sqrtv c), ?_, ?_, ?_, ?_⟩
    · rw [← hcoldef]
      exact scaled_column_fin c (sqrtv c) hsne
    · rw [colVariance_scaled c (sqrtv c) hcne, hsq, div_self (ne_of_gt hvarpos)]
    · rw [colVariance_scaled c (sqrtv c) hcne, hsq, div_self (ne_of_gt hvarpos)]
      norm_num
    · intro v hv
      rw [← hcoldef] at hv
      rw [scaled_column_fin c (sqrtv c) hsne, List.mem_map] at hv
      obtain ⟨q, _, hq⟩ := hv
      exact ⟨q, hq.symm⟩

/-- Witness for claim C9: one column `[0, 2]` of variance 1, whose
square root the oracle answers exactly. -/
theorem prepare_features_spec_witness :
    ∃ cq : List ℚ, [FVal.fin (-1), FVal.fin 1] = cq.map FVal.fin ∧
      colVariance cq = 1 ∧ (1/100000000 : ℚ) < colVariance cq ∧
      ∀ v ∈ [FVal.fin (-1), FVal.fin 1], ∃ q : ℚ, v = FVal.fin q :=
  prepare_features_spec (fun _ => 1) [[0, 2]] [[FVal.fin (-1), FVal.fin 1]]
    (by decide) (by decide) [FVal.fin (-1), FVal.fin 1] (by decide)

end PerfilCompra
